import Mathlib

/-!
Shallow embedding of the `cefevent` Go package (CEF codec): the event record
type, the escaping helpers, validation, `String` (encode), and `Read` (decode).
Go strings are modelled as `List Char`; a `Char` stands for one Unicode code
point, whose order coincides with the byte order of its UTF-8 encoding, so
lexicographic comparison of `List Char` matches Go's byte-wise string order.
-/

set_option maxHeartbeats 1000000

/-- ASCII character of the decimal digit `d` (used for `d < 10`). -/
def digitCh (d : Nat) : Char := Char.ofNat (48 + d)

/-- The ASCII digit test `'0' <= c <= '9'` that Go's `strconv` applies to each
character while scanning a base-10 integer literal. -/
def isDigitCh (c : Char) : Bool := 48 ≤ c.toNat && c.toNat ≤ 57

/-- Go's `unicode.IsSpace`: the White_Space code points
U+0009..U+000D, U+0020, U+0085, U+00A0, U+1680, U+2000..U+200A, U+2028,
U+2029, U+202F, U+205F, U+3000.  Used by `strings.TrimSpace`. -/
def goIsSpace (c : Char) : Bool :=
  (9 ≤ c.toNat && c.toNat ≤ 13) || c.toNat == 32 || c.toNat == 0x85 ||
  c.toNat == 0xA0 || c.toNat == 0x1680 ||
  (0x2000 ≤ c.toNat && c.toNat ≤ 0x200A) || c.toNat == 0x2028 ||
  c.toNat == 0x2029 || c.toNat == 0x202F || c.toNat == 0x205F ||
  c.toNat == 0x3000

/-- `strings.TrimSpace`: drop White_Space characters from both ends. -/
def goTrimSpace (s : List Char) : List Char :=
  ((s.dropWhile goIsSpace).reverse.dropWhile goIsSpace).reverse

/-- Per-character action of the `strings.NewReplacer` in `cefEscapeField`
(source lines 177-186): backslash to double backslash, pipe to
backslash-pipe, newline to backslash-`n`. -/
def escFieldChar (c : Char) : List Char :=
  if c = '\\' then ['\\', '\\']
  else if c = '|' then ['\\', '|']
  else if c = '\n' then ['\\', 'n']
  else [c]

/-- `cefEscapeField` (source lines 177-186).  Go's `strings.NewReplacer`
performs one left-to-right pass, never rescanning replacement text; with
single-character patterns this is exactly a character-wise map. -/
def cefEscapeField (s : List Char) : List Char := s.flatMap escFieldChar

/-- Per-character action of the `strings.NewReplacer` in
`cefEscapeExtension` (source lines 201-209): backslash to double backslash,
newline to backslash-`n`, equals sign to backslash-equals; pipe unchanged. -/
def escExtChar (c : Char) : List Char :=
  if c = '\\' then ['\\', '\\']
  else if c = '\n' then ['\\', 'n']
  else if c = '=' then ['\\', '=']
  else [c]

/-- `cefEscapeExtension` (source lines 201-209), same single-pass discipline
as `cefEscapeField`. -/
def cefEscapeExtension (s : List Char) : List Char := s.flatMap escExtChar

/-- The `CefEvent` struct.  `Extensions` is a Go `map[string]string`,
modelled as an association list whose order stands for one iteration order
of the map; a well-formed map has no duplicate keys (`Nodup` on the keys). -/
structure CefEvent where
  Version : Int
  DeviceVendor : List Char
  DeviceProduct : List Char
  DeviceVersion : List Char
  DeviceEventClassId : List Char
  Name : List Char
  Severity : List Char
  Extensions : List (List Char × List Char)
  deriving DecidableEq

/-- Go's zero value `CefEvent` (returned alongside every error). -/
def zeroEvent : CefEvent :=
  { Version := 0, DeviceVendor := [], DeviceProduct := [], DeviceVersion := [],
    DeviceEventClassId := [], Name := [], Severity := [], Extensions := [] }

/-- What `Validate` sees for the `Version` field: it calls
`reflect.Value.String()` on an int-kind value, which yields the placeholder
text `"<int Value>"` (never the empty string), so `Version` passes the
emptiness check whatever its integer value. -/
def versionReflString : List Char := "<int Value>".toList

/-- `Validate` (source lines 257-284): loop over the seven mandatory fields
and fail as soon as one reflects to the empty string.  `true` models the nil
error (valid), `false` the "not all mandatory CEF fields are set" error. -/
def Validate (event : CefEvent) : Bool :=
  [versionReflString, event.DeviceVendor, event.DeviceProduct,
    event.DeviceVersion, event.DeviceEventClassId, event.Name,
    event.Severity].all (fun f => !f.isEmpty)

/-- Go map assignment `m[k] = v` on the association-list model: overwrite
the entry with key `k` if present, otherwise add the pair. -/
def goMapInsert (m : List (List Char × List Char)) (k v : List Char) :
    List (List Char × List Char) :=
  match m with
  | [] => [(k, v)]
  | (k', v') :: rest =>
    if k' = k then (k, v) :: rest else (k', v') :: goMapInsert rest k v

/-- The extension loop of `escapeEventData` (source lines 235-243): build a
fresh map, assigning `escapedExtensions[cefEscapeExtension k] =
cefEscapeExtension v` for each entry (later duplicates overwrite). -/
def escapeExtensions (m : List (List Char × List Char)) :
    List (List Char × List Char) :=
  m.foldl
    (fun acc kv => goMapInsert acc (cefEscapeExtension kv.1) (cefEscapeExtension kv.2))
    []

/-- `escapeEventData` (source lines 224-246).  The receiver is a pointer, so
in Go this assigns the escaped values back into the caller's struct; here the
updated struct is returned.  Its Go error result is always nil, so the
error branches guarding it in `String`, `Build` and `Read` are dead code and
are not modelled. -/
def escapeEventData (event : CefEvent) : CefEvent :=
  { event with
    DeviceVendor := cefEscapeField event.DeviceVendor,
    DeviceProduct := cefEscapeField event.DeviceProduct,
    DeviceVersion := cefEscapeField event.DeviceVersion,
    DeviceEventClassId := cefEscapeField event.DeviceEventClassId,
    Name := cefEscapeField event.Name,
    Severity := cefEscapeField event.Severity,
    Extensions := escapeExtensions event.Extensions }

/-- Byte-lexicographic string order, Go's `s <= t` used by `sort.Strings`
(UTF-8 byte order equals code-point order). -/
def strLeB : List Char → List Char → Bool
  | [], _ => true
  | _ :: _, [] => false
  | a :: as, b :: bs => if a < b then true else if b < a then false else strLeB as bs

/-- Propositional form of `strLeB`. -/
def strLe (a b : List Char) : Prop := strLeB a b = true

instance : DecidableRel strLe := fun a b => decEq (strLeB a b) true

/-- `sort.Strings` (ascending byte-lexicographic sort of the key slice in
`String`, source line 358), modelled by insertion sort. -/
def sortStrings (l : List (List Char)) : List (List Char) :=
  List.insertionSort strLe l

/-- Go map read `m[k]`: value of the first entry with key `k`, or the zero
value (empty string) when the key is absent. -/
def goLookup (m : List (List Char × List Char)) (k : List Char) : List Char :=
  match m.find? (fun kv => decide (kv.1 = k)) with
  | some kv => kv.2
  | none => []

/-- The extension-segment construction in `String` (source lines 352-371):
write `k=v ` for each key in sorted order, then `strings.TrimSpace`. -/
def extensionString (m : List (List Char × List Char)) : List Char :=
  goTrimSpace
    ((sortStrings (m.map Prod.fst)).flatMap (fun k => k ++ '=' :: goLookup m k ++ [' ']))

/-- Big-endian decimal digits of `n`; the first argument is recursion fuel,
sufficient whenever `n < fuel`. -/
def natDigitsAux : Nat → Nat → List Char
  | 0, _ => []
  | f + 1, n => if n < 10 then [digitCh n] else natDigitsAux f (n / 10) ++ [digitCh (n % 10)]

/-- Decimal text of a natural number (no sign, no superfluous zeros), as
produced by `fmt.Sprintf("%v", n)`. -/
def natToStr (n : Nat) : List Char := natDigitsAux (n + 1) n

/-- `fmt.Sprintf("%v", i)` for a Go `int`: decimal digits with a leading
minus sign for negative values. -/
def intToStr (i : Int) : List Char :=
  if i < 0 then '-' :: natToStr i.natAbs else natToStr i.toNat

/-- The `fmt.Sprintf("CEF:%v|%v|%v|%v|%v|%v|%v|%v", ...)` call in `String`
(source lines 373-379), applied to the already-escaped event. -/
def buildLine (event : CefEvent) : List Char :=
  "CEF:".toList ++ intToStr event.Version ++ '|' :: event.DeviceVendor ++
  '|' :: event.DeviceProduct ++ '|' :: event.DeviceVersion ++
  '|' :: event.DeviceEventClassId ++ '|' :: event.Name ++
  '|' :: event.Severity ++ '|' :: extensionString event.Extensions

/-- The error values of the `cefevent` package. -/
inductive GoErr where
  /-- `errors.New("not all mandatory CEF fields are set")`. -/
  | missingFields
  /-- `errors.New("not a valid CEF message")`. -/
  | notACef
  /-- The non-nil error returned by `strconv.Atoi` on a bad version token. -/
  | invalidVersion
  deriving DecidableEq

/-- Result of `String` (Go returns `(string, error)` and, through the
pointer receiver, leaves the struct in a new state `post`). -/
structure StrOut where
  post : CefEvent
  out : List Char
  err : Option GoErr
  deriving DecidableEq

/-- Method `String` (source lines 342-382): validate, escape in place
(mutating the caller-visible record), sort the extension keys, and format
the line.  On validation failure it returns `("", error)` untouched. -/
def StringGo (event : CefEvent) : StrOut :=
  if Validate event then
    let escaped := escapeEventData event
    { post := escaped, out := buildLine escaped, err := none }
  else
    { post := event, out := [], err := some GoErr.missingFields }

/-- `strings.Split(s, sep)` for a one-character separator: always returns
`n + 1` (possibly empty) pieces for `n` separators; never empty. -/
def goSplit (sep : Char) : List Char → List (List Char)
  | [] => [[]]
  | c :: rest =>
    if c = sep then [] :: goSplit sep rest
    else (goSplit sep rest).modifyHead (fun piece => c :: piece)

/-- `strings.SplitN(s, sep, 2)` for a one-character separator: split at the
first occurrence only. -/
def splitTwo (sep : Char) : List Char → List (List Char)
  | [] => [[]]
  | c :: rest =>
    if c = sep then [[], rest]
    else (splitTwo sep rest).modifyHead (fun piece => c :: piece)

/-- The extension-parsing loop of `Read` (source lines 415-422): split the
extension segment on `" "`, split each token on the first `"="`, keep only
2-element splits, later duplicate keys overwrite earlier ones. -/
def parseExts (seg : List Char) : List (List Char × List Char) :=
  (goSplit ' ' seg).foldl
    (fun acc ext =>
      match splitTwo '=' ext with
      | [k, v] => goMapInsert acc k v
      | _ => acc)
    []

/-- The digit scan of `strconv.ParseInt` base 10: a nonempty all-digit
string, evaluated most-significant first. -/
def parseDigits (s : List Char) : Option Nat :=
  if s.isEmpty then none
  else if s.all isDigitCh then
    some (s.foldl (fun a c => a * 10 + (c.toNat - 48)) 0)
  else none

/-- `strconv.Atoi` = `strconv.ParseInt(s, 10, 0)` on a 64-bit platform:
optional single sign, decimal digits, and the `int64` range check
(values past the cutoff give `ErrRange`, hence a non-nil error). -/
def goAtoi : List Char → Option Int
  | [] => none
  | c :: rest =>
    if c = '+' then
      (parseDigits rest).bind fun n => if n ≤ 2 ^ 63 - 1 then some (n : Int) else none
    else if c = '-' then
      (parseDigits rest).bind fun n => if n ≤ 2 ^ 63 then some (-(n : Int)) else none
    else
      (parseDigits (c :: rest)).bind fun n =>
        if n ≤ 2 ^ 63 - 1 then some (n : Int) else none

/-- `strings.HasPrefix(s, p)` (named to satisfy local style). -/
def hasLead : List Char → List Char → Bool
  | [], _ => true
  | _ :: _, [] => false
  | p :: ps, c :: cs => if p = c then hasLead ps cs else false

/-- The literal `"CEF:"` tag. -/
def cefTag : List Char := ['C', 'E', 'F', ':']

/-- `strings.TrimPrefix(s, p)`. -/
def goTrimLead (p s : List Char) : List Char :=
  if hasLead p s then s.drop p.length else s

/-- Result of `Read`.  `err` pairs Go's `(CefEvent\x7b\x7d, error)` returns;
`outOfRange` models the Go runtime panic "index out of range" raised by an
out-of-bounds slice index, which aborts instead of returning. -/
inductive ReadResult where
  | ok (event : CefEvent)
  | err (ret : CefEvent) (e : GoErr)
  | outOfRange
  deriving DecidableEq

/-- The body of `Read` after the version conversion succeeded (source lines
409-440): parse the extension segment (guarded only by
`len(eventSlashed) >= 7` before indexing `eventSlashed[7]`), assign segments
1..6 verbatim, re-escape everything through `escapeEventData`, and validate.
Each Go slice index is modelled with `l[i]?`, yielding `outOfRange` where Go
would panic with "index out of range". -/
def readAfterVersion (cefVersion : Int) (eventSlashed : List (List Char)) :
    ReadResult :=
  let extBlock : Option (List (List Char × List Char)) :=
    if 7 ≤ eventSlashed.length then
      match eventSlashed[7]? with
      | none => none
      | some seg => some (parseExts seg)
    else some []
  match extBlock with
  | none => ReadResult.outOfRange
  | some parsedExtensions =>
    match eventSlashed[1]?, eventSlashed[2]?, eventSlashed[3]?,
          eventSlashed[4]?, eventSlashed[5]?, eventSlashed[6]? with
    | some dv, some dp, some dver, some dcid, some nm, some sev =>
      let ev : CefEvent :=
        { Version := cefVersion, DeviceVendor := dv, DeviceProduct := dp,
          DeviceVersion := dver, DeviceEventClassId := dcid, Name := nm,
          Severity := sev, Extensions := parsedExtensions }
      let escaped := escapeEventData ev
      if Validate escaped then ReadResult.ok escaped
      else ReadResult.err zeroEvent GoErr.missingFields
    | _, _, _, _, _, _ => ReadResult.outOfRange

/-- Method `Read` (source lines 399-443): check the `CEF:` tag, split the
trimmed line on `|`, convert the first segment with `strconv.Atoi`
(returning its error on failure), then continue with `readAfterVersion`. -/
def Read (eventLine : List Char) : ReadResult :=
  if hasLead cefTag eventLine then
    let eventSlashed := goSplit '|' (goTrimLead cefTag eventLine)
    match goAtoi (eventSlashed.headD []) with
    | none => ReadResult.err zeroEvent GoErr.invalidVersion
    | some cefVersion => readAfterVersion cefVersion eventSlashed
  else ReadResult.err zeroEvent GoErr.notACef

/-! ### Basic facts about the escaping functions -/

theorem cefEscapeField_cons (c : Char) (s : List Char) :
    cefEscapeField (c :: s) = escFieldChar c ++ cefEscapeField s := by
  simp [cefEscapeField]

theorem cefEscapeExtension_cons (c : Char) (s : List Char) :
    cefEscapeExtension (c :: s) = escExtChar c ++ cefEscapeExtension s := by
  simp [cefEscapeExtension]

/-- A sample event: the fixture used throughout the repository's tests. -/
def sampleEvent : CefEvent :=
  { Version := 0, DeviceVendor := "Cool Vendor".toList,
    DeviceProduct := "Cool Product".toList, DeviceVersion := "1.0".toList,
    DeviceEventClassId := "COOL_THING".toList,
    Name := "Something cool happened.".toList, Severity := "Unknown".toList,
    Extensions := [("src".toList, "127.0.0.1".toList)] }

/-- C6: both escaping functions are total, fix the empty string, and act as
the simultaneous per-character substitution given in the spec (backslash,
pipe and newline for header fields; backslash, newline and equals for
extensions, pipe untouched), never re-escaping replacement text; and the
field escape maps `a|b\c` to `a\|b\\c`. -/
theorem escape_functions_single_pass :
    cefEscapeField [] = [] ∧ cefEscapeExtension [] = [] ∧
    (∀ s, cefEscapeField ('\\' :: s) = '\\' :: '\\' :: cefEscapeField s) ∧
    (∀ s, cefEscapeField ('|' :: s) = '\\' :: '|' :: cefEscapeField s) ∧
    (∀ s, cefEscapeField ('\n' :: s) = '\\' :: 'n' :: cefEscapeField s) ∧
    (∀ c s, c ≠ '\\' → c ≠ '|' → c ≠ '\n' →
      cefEscapeField (c :: s) = c :: cefEscapeField s) ∧
    (∀ s, cefEscapeExtension ('\\' :: s) = '\\' :: '\\' :: cefEscapeExtension s) ∧
    (∀ s, cefEscapeExtension ('\n' :: s) = '\\' :: 'n' :: cefEscapeExtension s) ∧
    (∀ s, cefEscapeExtension ('=' :: s) = '\\' :: '=' :: cefEscapeExtension s) ∧
    (∀ c s, c ≠ '\\' → c ≠ '\n' → c ≠ '=' →
      cefEscapeExtension (c :: s) = c :: cefEscapeExtension s) ∧
    (∀ s, cefEscapeExtension ('|' :: s) = '|' :: cefEscapeExtension s) ∧
    cefEscapeField ['a', '|', 'b', '\\', 'c'] = ['a', '\\', '|', 'b', '\\', '\\', 'c'] := by
  refine ⟨rfl, rfl, ?_, ?_, ?_, ?_, ?_, ?_, ?_, ?_, ?_, by decide⟩
  · intro s; simp [cefEscapeField_cons, escFieldChar]
  · intro s; simp [cefEscapeField_cons, escFieldChar]
  · intro s; simp [cefEscapeField_cons, escFieldChar]
  · intro c s h1 h2 h3; simp [cefEscapeField_cons, escFieldChar, h1, h2, h3]
  · intro s; simp [cefEscapeExtension_cons, escExtChar]
  · intro s; simp [cefEscapeExtension_cons, escExtChar]
  · intro s; simp [cefEscapeExtension_cons, escExtChar]
  · intro c s h1 h2 h3; simp [cefEscapeExtension_cons, escExtChar, h1, h2, h3]
  · intro s; simp [cefEscapeExtension_cons, escExtChar]

/-- Witness for C6 at concrete characters. -/
theorem escape_functions_single_pass_witness :
    cefEscapeField ['x'] = 'x' :: cefEscapeField [] ∧
    cefEscapeExtension ['|'] = '|' :: cefEscapeExtension [] :=
  ⟨escape_functions_single_pass.2.2.2.2.2.1 'x' [] (by decide) (by decide) (by decide),
   escape_functions_single_pass.2.2.2.2.2.2.2.2.2.2.1 []⟩

/-! ### C4: validation -/

/-- C4: `Validate` fails exactly when one of the six string header fields is
empty; the integer `Version` never matters (reflection turns it into the
non-empty placeholder text), and on failure `String` returns the empty
string, a `MissingMandatoryField` error, and leaves the record untouched. -/
theorem validate_iff_empty_field (e : CefEvent) :
    (Validate e = false ↔
      (e.DeviceVendor = [] ∨ e.DeviceProduct = [] ∨ e.DeviceVersion = [] ∨
        e.DeviceEventClassId = [] ∨ e.Name = [] ∨ e.Severity = [])) ∧
    (∀ v : Int, Validate { e with Version := v } = Validate e) ∧
    (Validate e = false →
      StringGo e = { post := e, out := [], err := some GoErr.missingFields }) := by
  refine ⟨?_, fun v => rfl, fun h => by simp [StringGo, h]⟩
  have hver : (!versionReflString.isEmpty) = true := by decide
  simp [Validate, hver, List.isEmpty_iff]
  tauto

/-- Witness for C4: a record with an empty `Name` is rejected by `String`. -/
theorem validate_iff_empty_field_witness :
    StringGo { sampleEvent with Name := [] } =
      { post := { sampleEvent with Name := [] }, out := [], err := some GoErr.missingFields } :=
  (validate_iff_empty_field { sampleEvent with Name := [] }).2.2 (by decide)

/-! ### C1: the out-of-range indexes in Read -/

/-- C1 (divergence witness): `Read` hits an out-of-range slice index — a Go
runtime panic, not a returned error — on a line with seven `|`-separated
segments (the `len >= 7` guard still indexes `eventSlashed[7]`) and on the
prefix-and-version-only line `CEF:0` (segments 1..6 are indexed without any
guard). -/
theorem read_out_of_range_on_short_lines :
    Read "CEF:0|a|b|c|d|e|f".toList = ReadResult.outOfRange ∧
    Read "CEF:0".toList = ReadResult.outOfRange ∧
    Read "CEF:0|a|b|c|d|e|f|".toList =
      ReadResult.ok
        { Version := 0, DeviceVendor := ['a'], DeviceProduct := ['b'],
          DeviceVersion := ['c'], DeviceEventClassId := ['d'], Name := ['e'],
          Severity := ['f'], Extensions := [] } := by
  refine ⟨by decide, by decide, by decide⟩

/-! ### C7: the parse-failure cases of Read -/

theorem validate_ite_ne (c : Bool) (a ret : CefEvent) (g : GoErr)
    (hg : g ≠ GoErr.missingFields) :
    (if c = true then ReadResult.ok a else ReadResult.err ret GoErr.missingFields) ≠
      ReadResult.err zeroEvent g := by
  cases c <;> simp [eq_comm, hg]

theorem readAfterVersion_not_parse_err (v : Int) (sl : List (List Char)) :
    readAfterVersion v sl ≠ ReadResult.err zeroEvent GoErr.notACef ∧
    readAfterVersion v sl ≠ ReadResult.err zeroEvent GoErr.invalidVersion := by
  unfold readAfterVersion
  refine ⟨?_, ?_⟩ <;>
  · intro hEq
    repeat' split at hEq
    all_goals first
      | (simp_all; done)
      | exact absurd hEq (validate_ite_ne _ _ _ _ (by decide))

/-- C7: `Read` returns the `NotACefMessage` error exactly when the line does
not start with `CEF:`, and (when it does) the `InvalidVersion` error exactly
when the first `|`-separated token does not convert with `strconv.Atoi`;
both errors come with the zero record and abort decoding. -/
theorem read_parse_error_cases (line : List Char) :
    (Read line = ReadResult.err zeroEvent GoErr.notACef ↔
      hasLead cefTag line = false) ∧
    (hasLead cefTag line = true →
      (Read line = ReadResult.err zeroEvent GoErr.invalidVersion ↔
        goAtoi ((goSplit '|' (goTrimLead cefTag line)).headD []) = none)) := by
  by_cases h : hasLead cefTag line = true
  · rw [Bool.eq_false_iff]
    constructor
    · simp only [Read, h, if_true]
      cases hA : goAtoi ((goSplit '|' (goTrimLead cefTag line)).headD []) with
      | none => simp [h]
      | some v => simp [h, (readAfterVersion_not_parse_err v _).1]
    · intro _
      simp only [Read, h, if_true]
      cases hA : goAtoi ((goSplit '|' (goTrimLead cefTag line)).headD []) with
      | none => simp
      | some v => simp [hA, (readAfterVersion_not_parse_err v _).2]
  · have h' : hasLead cefTag line = false := by simpa using h
    simp [Read, h', h]

/-- Witness for C7: a non-numeric version token yields `InvalidVersion`. -/
theorem read_parse_error_cases_witness :
    Read "CEF:x|a|b|c|d|e|f|".toList = ReadResult.err zeroEvent GoErr.invalidVersion :=
  ((read_parse_error_cases "CEF:x|a|b|c|d|e|f|".toList).2 (by decide)).mpr (by decide)

/-! ### C9: injectivity of the extension escape -/

/-- Decoder for `cefEscapeExtension`'s output, used only to establish
injectivity (the package itself has no unescape). -/
def unescExt : List Char → List Char
  | [] => []
  | c :: rest =>
    if c = '\\' then
      match rest with
      | [] => ['\\']
      | d :: rest' =>
        (if d = 'n' then '\n' else if d = '=' then '=' else d) :: unescExt rest'
    else c :: unescExt rest

theorem unescExt_cons_of_ne (c : Char) (rest : List Char) (h : ¬c = '\\') :
    unescExt (c :: rest) = c :: unescExt rest := by
  cases rest <;> simp [unescExt, h]

theorem unescExt_escExt (s : List Char) : unescExt (cefEscapeExtension s) = s := by
  induction s with
  | nil => rfl
  | cons c s ih =>
    rw [cefEscapeExtension_cons]
    by_cases h1 : c = '\\'
    · subst h1; simp [escExtChar, unescExt, ih]
    · by_cases h2 : c = '\n'
      · subst h2; simp [escExtChar, unescExt, ih]
      · by_cases h3 : c = '='
        · subst h3; simp [escExtChar, unescExt, ih]
        · rw [show escExtChar c = [c] by simp [escExtChar, h1, h2, h3]]
          rw [List.singleton_append, unescExt_cons_of_ne c _ h1, ih]

theorem goMapInsert_of_not_mem {m : List (List Char × List Char)} {k v : List Char}
    (h : k ∉ m.map Prod.fst) : goMapInsert m k v = m ++ [(k, v)] := by
  induction m with
  | nil => rfl
  | cons kv rest ih =>
    obtain ⟨k', v'⟩ := kv
    simp only [List.map_cons, List.mem_cons] at h
    push_neg at h
    simp [goMapInsert, Ne.symm h.1, ih h.2]

theorem foldl_insert_eq_append (m : List (List Char × List Char)) :
    ∀ acc : List (List Char × List Char),
      (acc.map Prod.fst ++ m.map (fun kv => cefEscapeExtension kv.1)).Nodup →
      m.foldl
          (fun acc kv =>
            goMapInsert acc (cefEscapeExtension kv.1) (cefEscapeExtension kv.2)) acc =
        acc ++ m.map (fun kv => (cefEscapeExtension kv.1, cefEscapeExtension kv.2)) := by
  induction m with
  | nil => intro acc _; simp
  | cons kv rest ih =>
    intro acc h
    simp only [List.map_cons] at h
    have hk : cefEscapeExtension kv.1 ∉ acc.map Prod.fst := by
      intro hmem
      rw [List.nodup_append] at h
      exact h.2.2 hmem (List.mem_cons_self _ _)
    simp only [List.foldl_cons, List.map_cons]
    rw [goMapInsert_of_not_mem hk]
    rw [ih]
    · simp
    · rw [List.append_cons] at h
      simpa using h

theorem escapeExtensions_eq_map {m : List (List Char × List Char)}
    (h : (m.map (fun kv => cefEscapeExtension kv.1)).Nodup) :
    escapeExtensions m =
      m.map (fun kv => (cefEscapeExtension kv.1, cefEscapeExtension kv.2)) := by
  have := foldl_insert_eq_append m [] (by simpa using h)
  simpa [escapeExtensions] using this

theorem cefEscapeExtension_inj : ∀ s t : List Char,
    cefEscapeExtension s = cefEscapeExtension t → s = t := by
  intro s t h
  have h2 := congrArg unescExt h
  rwa [unescExt_escExt, unescExt_escExt] at h2

theorem escKeys_nodup {m : List (List Char × List Char)}
    (hm : (m.map Prod.fst).Nodup) :
    (m.map (fun kv => cefEscapeExtension kv.1)).Nodup := by
  have hcomp : m.map (fun kv => cefEscapeExtension kv.1) =
      (m.map Prod.fst).map cefEscapeExtension := by
    simp [List.map_map, Function.comp]
  rw [hcomp]
  have hinj' : Function.Injective cefEscapeExtension := by
    intro a b hab; exact cefEscapeExtension_inj a b hab
  exact hm.map hinj'

/-- C9: `cefEscapeExtension` is injective, so escaping the extension map in
`escapeEventData` never collapses two distinct raw keys: for a map with
distinct keys the escaped map has exactly as many entries. -/
theorem escape_extension_injective :
    (∀ s t : List Char, cefEscapeExtension s = cefEscapeExtension t → s = t) ∧
    (∀ m : List (List Char × List Char), (m.map Prod.fst).Nodup →
      (escapeExtensions m).length = m.length) := by
  refine ⟨cefEscapeExtension_inj, ?_⟩
  intro m hm
  rw [escapeExtensions_eq_map (escKeys_nodup hm)]
  simp

/-- Witness for C9 at concrete inputs. -/
theorem escape_extension_injective_witness :
    "a=b".toList = "a=b".toList ∧
    (escapeExtensions [("k".toList, "v".toList), ("k2".toList, "w".toList)]).length = 2 :=
  ⟨escape_extension_injective.1 "a=b".toList "a=b".toList rfl,
   escape_extension_injective.2 [("k".toList, "v".toList), ("k2".toList, "w".toList)]
     (by decide)⟩

/-! ### C3: String mutates the caller-visible record -/

/-- A valid record whose vendor field needs escaping. -/
def pipeEvent : CefEvent := { sampleEvent with DeviceVendor := "a|b".toList }

/-- C3 counterexample: `String` succeeds on this record, yet afterwards the
caller-visible record differs from its value before the call (its
`DeviceVendor` has been replaced by the escaped text), because
`escapeEventData` writes through the pointer receiver. -/
theorem string_mutates_caller_record :
    (StringGo pipeEvent).err = none ∧
    (StringGo pipeEvent).post ≠ pipeEvent ∧
    (StringGo pipeEvent).post.DeviceVendor = "a\\|b".toList := by
  refine ⟨by decide, by decide, by decide⟩

/-- C3 amended: `String` does mutate the caller-visible record; precisely,
after a call the record equals its escaped form (`escapeEventData`) when
validation passed, and is untouched when validation failed; a record whose
fields are all fixed points of the escapes (and whose extension keys are
distinct) is left unchanged. -/
theorem string_post_state (e : CefEvent) :
    ((StringGo e).post = if Validate e = true then escapeEventData e else e) ∧
    ((∀ kv ∈ e.Extensions, cefEscapeExtension kv.1 = kv.1 ∧ cefEscapeExtension kv.2 = kv.2) →
      (e.Extensions.map Prod.fst).Nodup →
      cefEscapeField e.DeviceVendor = e.DeviceVendor →
      cefEscapeField e.DeviceProduct = e.DeviceProduct →
      cefEscapeField e.DeviceVersion = e.DeviceVersion →
      cefEscapeField e.DeviceEventClassId = e.DeviceEventClassId →
      cefEscapeField e.Name = e.Name →
      cefEscapeField e.Severity = e.Severity →
      (StringGo e).post = e) := by
  constructor
  · by_cases h : Validate e = true <;> simp [StringGo, h]
  · intro hext hnd h1 h2 h3 h4 h5 h6
    have hkeys : (e.Extensions.map (fun kv => cefEscapeExtension kv.1)).Nodup := by
      have heq : e.Extensions.map (fun kv => cefEscapeExtension kv.1) =
          e.Extensions.map Prod.fst := by
        apply List.map_congr_left
        intro kv hkv
        exact (hext kv hkv).1
      rw [heq]; exact hnd
    have hmap : escapeExtensions e.Extensions = e.Extensions := by
      rw [escapeExtensions_eq_map hkeys]
      have heq : e.Extensions.map
          (fun kv => (cefEscapeExtension kv.1, cefEscapeExtension kv.2)) =
          e.Extensions.map id := by
        apply List.map_congr_left
        intro kv hkv
        obtain ⟨hk, hv⟩ := hext kv hkv
        simp [hk, hv]
      rw [heq, List.map_id]
    have hesc : escapeEventData e = e := by
      simp [escapeEventData, h1, h2, h3, h4, h5, h6, hmap]
    by_cases h : Validate e = true <;> simp [StringGo, h, hesc]

/-- Witness for C3's amended statement: a record with no escapable
characters is left unchanged by a successful `String` call. -/
theorem string_post_state_witness : (StringGo sampleEvent).post = sampleEvent :=
  (string_post_state sampleEvent).2 (by decide) (by decide) (by decide) (by decide)
    (by decide) (by decide) (by decide) (by decide)

/-! ### C8: shape of the encoded line -/

/-- C8: for every record passing validation, the output of `String` is the
`CEF:` tag followed by exactly eight fields joined by `|` in the fixed
order (decimal version, the six escaped header fields, extension segment),
with no trailing separator; with an empty extension map the eighth field is
empty, so the line ends with the escaped severity followed by `|`. -/
theorem string_line_shape (e : CefEvent) (h : Validate e = true) :
    (StringGo e).out =
      "CEF:".toList ++
        List.intercalate ['|']
          [intToStr e.Version, cefEscapeField e.DeviceVendor,
            cefEscapeField e.DeviceProduct, cefEscapeField e.DeviceVersion,
            cefEscapeField e.DeviceEventClassId, cefEscapeField e.Name,
            cefEscapeField e.Severity,
            extensionString (escapeExtensions e.Extensions)] ∧
    (e.Extensions = [] →
      (StringGo e).out =
        "CEF:".toList ++ intToStr e.Version ++ '|' :: cefEscapeField e.DeviceVendor ++
        '|' :: cefEscapeField e.DeviceProduct ++ '|' :: cefEscapeField e.DeviceVersion ++
        '|' :: cefEscapeField e.DeviceEventClassId ++ '|' :: cefEscapeField e.Name ++
        '|' :: cefEscapeField e.Severity ++ ['|']) := by
  constructor
  · simp [StringGo, h, buildLine, escapeEventData, List.intercalate, List.intersperse]
  · intro hx
    simp [StringGo, h, buildLine, escapeEventData, hx, extensionString, escapeExtensions,
      sortStrings, goTrimSpace]

/-- Witness for C8 at the sample event. -/
theorem string_line_shape_witness :
    (StringGo sampleEvent).out =
      "CEF:".toList ++
        List.intercalate ['|']
          [intToStr sampleEvent.Version, cefEscapeField sampleEvent.DeviceVendor,
            cefEscapeField sampleEvent.DeviceProduct, cefEscapeField sampleEvent.DeviceVersion,
            cefEscapeField sampleEvent.DeviceEventClassId, cefEscapeField sampleEvent.Name,
            cefEscapeField sampleEvent.Severity,
            extensionString (escapeExtensions sampleEvent.Extensions)] :=
  (string_line_shape sampleEvent (by decide)).1

/-! ### C10: successful output has no raw newline -/

theorem digitCh_toNat {d : Nat} (h : d < 10) : (digitCh d).toNat = 48 + d := by
  interval_cases d <;> decide

theorem mem_natDigitsAux {f n : Nat} {c : Char} (h : c ∈ natDigitsAux f n) :
    ∃ d, d < 10 ∧ c = digitCh d := by
  induction f generalizing n with
  | zero => simp [natDigitsAux] at h
  | succ f ih =>
    unfold natDigitsAux at h
    by_cases h10 : n < 10
    · simp [h10] at h
      exact ⟨n, h10, h⟩
    · simp [h10] at h
      rcases h with h | h
      · exact ih h
      · exact ⟨n % 10, Nat.mod_lt _ (by omega), h⟩

theorem newline_not_mem_natToStr (n : Nat) : '\n' ∉ natToStr n := by
  intro h
  unfold natToStr at h
  obtain ⟨d, hd10, hdig⟩ := mem_natDigitsAux h
  have h2 := congrArg Char.toNat hdig
  rw [digitCh_toNat hd10] at h2
  have h3 : ('\n').toNat = 10 := by decide
  omega

theorem newline_not_mem_intToStr (i : Int) : '\n' ∉ intToStr i := by
  intro h
  unfold intToStr at h
  by_cases hneg : i < 0
  · rw [if_pos hneg, List.mem_cons] at h
    rcases h with h | h
    · exact absurd h (by decide)
    · exact newline_not_mem_natToStr _ h
  · rw [if_neg hneg] at h
    exact newline_not_mem_natToStr _ h

theorem newline_not_mem_escField (s : List Char) : '\n' ∉ cefEscapeField s := by
  induction s with
  | nil => simp [cefEscapeField]
  | cons c s ih =>
    rw [cefEscapeField_cons]
    simp only [List.mem_append, not_or]
    refine ⟨?_, ih⟩
    by_cases e1 : c = '\\'
    · simp [escFieldChar, e1]
    · by_cases e2 : c = '|'
      · simp [escFieldChar, e1, e2]
      · by_cases e3 : c = '\n'
        · simp [escFieldChar, e1, e2, e3]
        · simp [escFieldChar, e1, e2, e3]
          exact fun hEq => e3 hEq.symm

theorem newline_not_mem_escExt (s : List Char) : '\n' ∉ cefEscapeExtension s := by
  induction s with
  | nil => simp [cefEscapeExtension]
  | cons c s ih =>
    rw [cefEscapeExtension_cons]
    simp only [List.mem_append, not_or]
    refine ⟨?_, ih⟩
    by_cases e1 : c = '\\'
    · simp [escExtChar, e1]
    · by_cases e2 : c = '\n'
      · simp [escExtChar, e1, e2]
      · by_cases e3 : c = '='
        · simp [escExtChar, e1, e2, e3]
        · simp [escExtChar, e1, e2, e3]
          exact fun hEq => e2 hEq.symm

theorem mem_goTrimSpace {c : Char} {s : List Char} (h : c ∈ goTrimSpace s) : c ∈ s := by
  unfold goTrimSpace at h
  rw [List.mem_reverse] at h
  have h1 := (List.dropWhile_sublist goIsSpace).mem h
  rw [List.mem_reverse] at h1
  exact (List.dropWhile_sublist goIsSpace).mem h1

theorem mem_goLookup {m : List (List Char × List Char)} {k : List Char} {c : Char}
    (h : c ∈ goLookup m k) : ∃ kv ∈ m, c ∈ kv.2 := by
  unfold goLookup at h
  cases hf : m.find? (fun kv => decide (kv.1 = k)) with
  | none => rw [hf] at h; simp at h
  | some kv => rw [hf] at h; exact ⟨kv, List.mem_of_find?_eq_some hf, h⟩

theorem mem_extensionString {c : Char} {m : List (List Char × List Char)}
    (h : c ∈ extensionString m) :
    c = '=' ∨ c = ' ' ∨ (∃ kv ∈ m, c ∈ kv.1) ∨ (∃ kv ∈ m, c ∈ kv.2) := by
  unfold extensionString at h
  have h2 := mem_goTrimSpace h
  rw [List.mem_flatMap] at h2
  obtain ⟨k, hk, hc⟩ := h2
  have hkmem : k ∈ m.map Prod.fst := (List.perm_insertionSort strLe _).subset hk
  rw [List.mem_map] at hkmem
  obtain ⟨kv, hkv, hfst⟩ := hkmem
  have hres : c ∈ k ∨ c = '=' ∨ c ∈ goLookup m k ∨ c = ' ' := by
    simpa using hc
  rcases hres with hc | hc | hc | hc
  · exact Or.inr (Or.inr (Or.inl ⟨kv, hkv, hfst ▸ hc⟩))
  · exact Or.inl hc
  · obtain ⟨kv2, hkv2, hv2⟩ := mem_goLookup hc
    exact Or.inr (Or.inr (Or.inr ⟨kv2, hkv2, hv2⟩))
  · exact Or.inr (Or.inl hc)

theorem mem_goMapInsert {kv₀ : List Char × List Char}
    {m : List (List Char × List Char)} {k v : List Char}
    (h : kv₀ ∈ goMapInsert m k v) : kv₀ ∈ m ∨ kv₀ = (k, v) := by
  induction m with
  | nil => simp [goMapInsert] at h; exact Or.inr h
  | cons kv rest ih =>
    obtain ⟨k', v'⟩ := kv
    by_cases he : k' = k
    · simp [goMapInsert, he] at h
      rcases h with h | h
      · exact Or.inr (by simp [h])
      · exact Or.inl (List.mem_cons_of_mem _ h)
    · simp [goMapInsert, he] at h
      rcases h with h | h
      · exact Or.inl (by simp [h])
      · rcases ih h with h2 | h2
        · exact Or.inl (List.mem_cons_of_mem _ h2)
        · exact Or.inr h2

theorem mem_escapeExtensions {kv : List Char × List Char}
    {m : List (List Char × List Char)} (h : kv ∈ escapeExtensions m) :
    ∃ kv₀ ∈ m, kv = (cefEscapeExtension kv₀.1, cefEscapeExtension kv₀.2) := by
  unfold escapeExtensions at h
  suffices haux : ∀ acc : List (List Char × List Char),
      kv ∈ m.foldl
        (fun acc kv =>
          goMapInsert acc (cefEscapeExtension kv.1) (cefEscapeExtension kv.2)) acc →
      kv ∈ acc ∨ ∃ kv₀ ∈ m, kv = (cefEscapeExtension kv₀.1, cefEscapeExtension kv₀.2) by
    rcases haux [] h with h2 | h2
    · simp at h2
    · exact h2
  clear h
  induction m with
  | nil => intro acc h; exact Or.inl h
  | cons kv1 rest ih =>
    intro acc h
    rw [List.foldl_cons] at h
    rcases ih _ h with h2 | h2
    · rcases mem_goMapInsert h2 with h3 | h3
      · exact Or.inl h3
      · exact Or.inr ⟨kv1, List.mem_cons_self _ _, h3⟩
    · obtain ⟨kv₀, hmem, heq⟩ := h2
      exact Or.inr ⟨kv₀, List.mem_cons_of_mem _ hmem, heq⟩

/-- C10: every line produced by a successful `String` call contains no raw
newline character: the version is decimal text, every header field passes
through `cefEscapeField`, every extension key and value through
`cefEscapeExtension` (both replace newlines by backslash-`n`), and the
delimiters are pipe, equals and space. -/
theorem string_output_single_line (e : CefEvent) (h : (StringGo e).err = none) :
    '\n' ∉ (StringGo e).out := by
  have hv : Validate e = true := by
    by_cases hv : Validate e = true
    · exact hv
    · simp [StringGo, hv] at h
  simp only [StringGo, hv, if_true]
  intro hmem
  unfold buildLine at hmem
  simp only [List.mem_append, List.mem_cons] at hmem
  have hCEF : '\n' ∉ "CEF:".toList := by decide
  have hpipe : ('\n' : Char) ≠ '|' := by decide
  rcases hmem with ((((((((h1 | h2) | h3) | h4) | h5) | h6) | h7) | h8) | h9)
  · exact hCEF h1
  · exact newline_not_mem_intToStr _ h2
  · rcases h3 with h3 | h3
    · exact hpipe h3
    · exact newline_not_mem_escField _ h3
  · rcases h4 with h4 | h4
    · exact hpipe h4
    · exact newline_not_mem_escField _ h4
  · rcases h5 with h5 | h5
    · exact hpipe h5
    · exact newline_not_mem_escField _ h5
  · rcases h6 with h6 | h6
    · exact hpipe h6
    · exact newline_not_mem_escField _ h6
  · rcases h7 with h7 | h7
    · exact hpipe h7
    · exact newline_not_mem_escField _ h7
  · rcases h8 with h8 | h8
    · exact hpipe h8
    · exact newline_not_mem_escField _ h8
  · rcases h9 with h9 | h9
    · exact hpipe h9
    · rcases mem_extensionString h9 with h10 | h10 | ⟨kv, hkv, h10⟩ | ⟨kv, hkv, h10⟩
      · exact absurd h10 (by decide)
      · exact absurd h10 (by decide)
      · obtain ⟨kv₀, _, heq⟩ := mem_escapeExtensions hkv
        rw [heq] at h10
        exact newline_not_mem_escExt _ h10
      · obtain ⟨kv₀, _, heq⟩ := mem_escapeExtensions hkv
        rw [heq] at h10
        exact newline_not_mem_escExt _ h10

/-- A valid record whose name and extension value contain raw newlines. -/
def newlineEvent : CefEvent :=
  { sampleEvent with
    Name := "line one\nline two".toList
    Extensions := [("k".toList, "v1\nv2".toList)] }

/-- Witness for C10 at a record containing newlines before escaping. -/
theorem string_output_single_line_witness : '\n' ∉ (StringGo newlineEvent).out :=
  string_output_single_line newlineEvent (by decide)

/-! ### Decimal text and Atoi round-trip -/

theorem isDigitCh_digitCh {d : Nat} (h : d < 10) : isDigitCh (digitCh d) = true := by
  unfold isDigitCh
  rw [digitCh_toNat h]
  simp
  omega

theorem natDigitsAux_foldl (f : Nat) : ∀ n a, n < f →
    List.foldl (fun a c => a * 10 + (c.toNat - 48)) a (natDigitsAux f n) =
      a * 10 ^ (natDigitsAux f n).length + n := by
  induction f with
  | zero => intro n a h; omega
  | succ f ih =>
    intro n a h
    unfold natDigitsAux
    by_cases h10 : n < 10
    · rw [if_pos h10]
      simp only [List.foldl_cons, List.foldl_nil, List.length_cons, List.length_nil]
      rw [digitCh_toNat h10, pow_one]
      omega
    · rw [if_neg h10]
      have hpos : 0 < n := by omega
      have hlt : n / 10 < n := Nat.div_lt_self hpos (by omega)
      have hdiv : n / 10 < f := by omega
      have hmod : n % 10 < 10 := Nat.mod_lt n (by omega)
      rw [List.foldl_append, ih (n / 10) a hdiv]
      simp only [List.foldl_cons, List.foldl_nil, List.length_append,
        List.length_cons, List.length_nil]
      rw [digitCh_toNat hmod, pow_succ, ← mul_assoc]
      have hdm := Nat.div_add_mod n 10
      set b := a * 10 ^ (natDigitsAux f (n / 10)).length with hb
      omega

theorem natDigitsAux_all_digits (f : Nat) : ∀ n, (natDigitsAux f n).all isDigitCh = true := by
  induction f with
  | zero => intro n; rfl
  | succ f ih =>
    intro n
    unfold natDigitsAux
    by_cases h10 : n < 10
    · rw [if_pos h10]
      simp [isDigitCh_digitCh h10]
    · rw [if_neg h10]
      have hmod : n % 10 < 10 := Nat.mod_lt n (by omega)
      simp [List.all_append, ih, isDigitCh_digitCh hmod]

theorem natDigitsAux_ne_nil {f n : Nat} (h : n < f) : natDigitsAux f n ≠ [] := by
  cases f with
  | zero => omega
  | succ f =>
    unfold natDigitsAux
    by_cases h10 : n < 10 <;> simp [h10]

theorem parseDigits_natToStr (n : Nat) : parseDigits (natToStr n) = some n := by
  unfold parseDigits natToStr
  have hne := natDigitsAux_ne_nil (Nat.lt_succ_self n)
  rw [if_neg (by simpa [List.isEmpty_iff] using hne)]
  rw [if_pos (natDigitsAux_all_digits (n + 1) n)]
  have hfold := natDigitsAux_foldl (n + 1) n 0 (Nat.lt_succ_self n)
  simpa using hfold

theorem isDigitCh_ne {c : Char} (h : isDigitCh c = true) :
    c ≠ '+' ∧ c ≠ '-' ∧ c ≠ '|' := by
  refine ⟨?_, ?_, ?_⟩ <;> (rintro rfl; exact absurd h (by decide))

theorem goAtoi_intToStr {i : Int} (hlo : -(2 ^ 63 : Int) ≤ i) (hhi : i ≤ 2 ^ 63 - 1) :
    goAtoi (intToStr i) = some i := by
  by_cases hneg : i < 0
  · unfold intToStr
    rw [if_pos hneg]
    have habs : (i.natAbs : Int) = -i := by omega
    rw [show goAtoi ('-' :: natToStr i.natAbs) =
        (parseDigits (natToStr i.natAbs)).bind
          (fun n => if n ≤ 2 ^ 63 then some (-(n : Int)) else none) from by
      rw [goAtoi, if_neg (by decide), if_pos rfl]]
    rw [parseDigits_natToStr]
    have hle : i.natAbs ≤ 2 ^ 63 := by
      have h63 : ((2 : Nat) ^ 63 : Int) = 2 ^ 63 := by norm_num
      omega
    rw [Option.some_bind, if_pos hle]
    simp only [Option.some.injEq]
    omega
  · unfold intToStr
    rw [if_neg hneg]
    obtain ⟨c, rest, hcons⟩ := List.exists_cons_of_ne_nil
      (show natToStr i.toNat ≠ [] from by
        unfold natToStr; exact natDigitsAux_ne_nil (Nat.lt_succ_self _))
    have hcmem : c ∈ natToStr i.toNat := by rw [hcons]; exact List.mem_cons_self _ _
    have hdig : isDigitCh c = true := by
      have hall := natDigitsAux_all_digits (i.toNat + 1) i.toNat
      rw [List.all_eq_true] at hall
      exact hall c (by simpa [natToStr] using hcmem)
    obtain ⟨hp, hm, _⟩ := isDigitCh_ne hdig
    rw [hcons]
    rw [show goAtoi (c :: rest) =
        (parseDigits (c :: rest)).bind
          (fun n => if n ≤ 2 ^ 63 - 1 then some (n : Int) else none) from by
      rw [goAtoi, if_neg hp, if_neg hm]]
    rw [← hcons, parseDigits_natToStr]
    have hle : i.toNat ≤ 2 ^ 63 - 1 := by
      have h63 : ((2 : Nat) ^ 63 : Int) = 2 ^ 63 := by norm_num
      omega
    rw [Option.some_bind, if_pos hle]
    simp
    omega

theorem pipe_not_mem_natToStr (n : Nat) : '|' ∉ natToStr n := by
  intro h
  unfold natToStr at h
  obtain ⟨d, hd10, hdig⟩ := mem_natDigitsAux h
  have h2 := congrArg Char.toNat hdig
  rw [digitCh_toNat hd10] at h2
  have h3 : ('|').toNat = 124 := by decide
  omega

theorem pipe_not_mem_intToStr (i : Int) : '|' ∉ intToStr i := by
  intro h
  unfold intToStr at h
  by_cases hneg : i < 0
  · rw [if_pos hneg, List.mem_cons] at h
    rcases h with h | h
    · exact absurd h (by decide)
    · exact pipe_not_mem_natToStr _ h
  · rw [if_neg hneg] at h
    exact pipe_not_mem_natToStr _ h

/-! ### Splitting lemmas -/

theorem goSplit_cons_ne {sep c : Char} (rest : List Char) (h : ¬c = sep) :
    goSplit sep (c :: rest) =
      (goSplit sep rest).modifyHead (fun piece => c :: piece) := by
  rw [goSplit, if_neg h]

theorem goSplit_ne_nil (sep : Char) (s : List Char) : goSplit sep s ≠ [] := by
  induction s with
  | nil => simp [goSplit]
  | cons c rest ih =>
    by_cases h : c = sep
    · rw [goSplit, if_pos h]
      simp
    · rw [goSplit_cons_ne rest h]
      cases hs : goSplit sep rest with
      | nil => exact absurd hs ih
      | cons x t => simp

theorem goSplit_of_not_mem {sep : Char} {s : List Char} (h : sep ∉ s) :
    goSplit sep s = [s] := by
  induction s with
  | nil => rfl
  | cons c rest ih =>
    simp only [List.mem_cons, not_or] at h
    rw [goSplit_cons_ne rest (fun hEq => h.1 hEq.symm), ih h.2]
    rfl

theorem goSplit_append {sep : Char} {a : List Char} (b : List Char) (h : sep ∉ a) :
    goSplit sep (a ++ sep :: b) = a :: goSplit sep b := by
  induction a with
  | nil =>
    rw [List.nil_append, goSplit, if_pos rfl]
  | cons c rest ih =>
    simp only [List.mem_cons, not_or] at h
    rw [List.cons_append, goSplit_cons_ne _ (fun hEq => h.1 hEq.symm), ih h.2]
    rfl

theorem hasLead_append (p r : List Char) : hasLead p (p ++ r) = true := by
  induction p with
  | nil => rfl
  | cons c t ih => simp [hasLead, ih]

theorem goTrimLead_append (r : List Char) : goTrimLead cefTag (cefTag ++ r) = r := by
  unfold goTrimLead
  rw [if_pos (hasLead_append cefTag r)]
  simp [cefTag]

/-- Header fields free of the three characters `cefEscapeField` rewrites. -/
def noFieldSpecials (s : List Char) : Prop := '\\' ∉ s ∧ '|' ∉ s ∧ '\n' ∉ s

theorem escField_id {s : List Char} (h : noFieldSpecials s) : cefEscapeField s = s := by
  obtain ⟨h1, h2, h3⟩ := h
  induction s with
  | nil => rfl
  | cons c t ih =>
    simp only [List.mem_cons, not_or] at h1 h2 h3
    rw [cefEscapeField_cons, ih h1.2 h2.2 h3.2]
    have hc : escFieldChar c = [c] := by
      have e1 : ¬c = '\\' := fun hEq => h1.1 hEq.symm
      have e2 : ¬c = '|' := fun hEq => h2.1 hEq.symm
      have e3 : ¬c = '\n' := fun hEq => h3.1 hEq.symm
      simp [escFieldChar, e1, e2, e3]
    rw [hc, List.singleton_append]

/-! ### C2: decode of encode -/

theorem stringGo_out_of_valid (e : CefEvent) (hv : Validate e = true)
    (h1 : noFieldSpecials e.DeviceVendor) (h2 : noFieldSpecials e.DeviceProduct)
    (h3 : noFieldSpecials e.DeviceVersion) (h4 : noFieldSpecials e.DeviceEventClassId)
    (h5 : noFieldSpecials e.Name) (h6 : noFieldSpecials e.Severity) :
    (StringGo e).out =
      cefTag ++ (intToStr e.Version ++ '|' :: (e.DeviceVendor ++ '|' ::
        (e.DeviceProduct ++ '|' :: (e.DeviceVersion ++ '|' ::
          (e.DeviceEventClassId ++ '|' :: (e.Name ++ '|' ::
            (e.Severity ++ '|' ::
              extensionString (escapeExtensions e.Extensions)))))))) := by
  have hCEF : "CEF:".toList = cefTag := rfl
  simp only [StringGo, hv, if_true, buildLine, escapeEventData, hCEF,
    escField_id h1, escField_id h2, escField_id h3, escField_id h4,
    escField_id h5, escField_id h6]
  simp [List.append_assoc]

/-- C2 amended: for every valid record whose six raw header fields contain
none of the characters rewritten by `cefEscapeField` (backslash, pipe,
newline) and whose version fits a 64-bit int, `Read` applied to the line
produced by `String` succeeds, and each string header field of the decoded
record equals the escaped form (`cefEscapeField` applied once — here equal
to the raw field) of the corresponding raw field. -/
theorem decode_encode_roundtrip (e : CefEvent)
    (hv : Validate e = true)
    (hlo : -(2 ^ 63 : Int) ≤ e.Version) (hhi : e.Version ≤ 2 ^ 63 - 1)
    (h1 : noFieldSpecials e.DeviceVendor) (h2 : noFieldSpecials e.DeviceProduct)
    (h3 : noFieldSpecials e.DeviceVersion) (h4 : noFieldSpecials e.DeviceEventClassId)
    (h5 : noFieldSpecials e.Name) (h6 : noFieldSpecials e.Severity) :
    ∃ d : CefEvent, Read ((StringGo e).out) = ReadResult.ok d ∧
      d.Version = e.Version ∧
      d.DeviceVendor = cefEscapeField e.DeviceVendor ∧
      d.DeviceProduct = cefEscapeField e.DeviceProduct ∧
      d.DeviceVersion = cefEscapeField e.DeviceVersion ∧
      d.DeviceEventClassId = cefEscapeField e.DeviceEventClassId ∧
      d.Name = cefEscapeField e.Name ∧
      d.Severity = cefEscapeField e.Severity := by
  rw [stringGo_out_of_valid e hv h1 h2 h3 h4 h5 h6]
  obtain ⟨s7, t7, h7⟩ := List.exists_cons_of_ne_nil
    (goSplit_ne_nil '|' (extensionString (escapeExtensions e.Extensions)))
  have hsplit : goSplit '|' (intToStr e.Version ++ '|' :: (e.DeviceVendor ++ '|' ::
      (e.DeviceProduct ++ '|' :: (e.DeviceVersion ++ '|' ::
        (e.DeviceEventClassId ++ '|' :: (e.Name ++ '|' ::
          (e.Severity ++ '|' ::
            extensionString (escapeExtensions e.Extensions)))))))) =
      intToStr e.Version :: e.DeviceVendor :: e.DeviceProduct :: e.DeviceVersion ::
        e.DeviceEventClassId :: e.Name :: e.Severity :: s7 :: t7 := by
    rw [goSplit_append _ (pipe_not_mem_intToStr e.Version),
      goSplit_append _ h1.2.1, goSplit_append _ h2.2.1, goSplit_append _ h3.2.1,
      goSplit_append _ h4.2.1, goSplit_append _ h5.2.1, goSplit_append _ h6.2.1,
      h7]
  rw [Read, if_pos (hasLead_append cefTag _), goTrimLead_append, hsplit]
  simp only [List.headD_cons]
  rw [goAtoi_intToStr hlo hhi]
  have hval : Validate (escapeEventData
      { Version := e.Version, DeviceVendor := e.DeviceVendor,
        DeviceProduct := e.DeviceProduct, DeviceVersion := e.DeviceVersion,
        DeviceEventClassId := e.DeviceEventClassId, Name := e.Name,
        Severity := e.Severity, Extensions := parseExts s7 }) = true := by
    simp only [Validate, escapeEventData, escField_id h1, escField_id h2,
      escField_id h3, escField_id h4, escField_id h5, escField_id h6] at hv ⊢
    exact hv
  refine ⟨escapeEventData
      { Version := e.Version, DeviceVendor := e.DeviceVendor,
        DeviceProduct := e.DeviceProduct, DeviceVersion := e.DeviceVersion,
        DeviceEventClassId := e.DeviceEventClassId, Name := e.Name,
        Severity := e.Severity, Extensions := parseExts s7 },
    ?_, rfl, rfl, rfl, rfl, rfl, rfl, rfl⟩
  unfold readAfterVersion
  simp only [List.length_cons, List.getElem?_cons_succ, List.getElem?_cons_zero]
  rw [if_pos (by omega)]
  simp only [hval, if_true]

/-- Witness for C2's amended statement at the repository's test fixture. -/
theorem decode_encode_roundtrip_witness :
    ∃ d : CefEvent, Read ((StringGo sampleEvent).out) = ReadResult.ok d ∧
      d.Version = sampleEvent.Version ∧
      d.DeviceVendor = cefEscapeField sampleEvent.DeviceVendor ∧
      d.DeviceProduct = cefEscapeField sampleEvent.DeviceProduct ∧
      d.DeviceVersion = cefEscapeField sampleEvent.DeviceVersion ∧
      d.DeviceEventClassId = cefEscapeField sampleEvent.DeviceEventClassId ∧
      d.Name = cefEscapeField sampleEvent.Name ∧
      d.Severity = cefEscapeField sampleEvent.Severity :=
  decode_encode_roundtrip sampleEvent (by decide) (by decide) (by decide)
    ⟨by decide, by decide, by decide⟩ ⟨by decide, by decide, by decide⟩
    ⟨by decide, by decide, by decide⟩ ⟨by decide, by decide, by decide⟩
    ⟨by decide, by decide, by decide⟩ ⟨by decide, by decide, by decide⟩

/-- A valid record whose vendor contains a raw backslash. -/
def slashEvent : CefEvent := { sampleEvent with DeviceVendor := "a\\b".toList }

/-- Vendor field of a successful decode. -/
def readVendor : ReadResult → Option (List Char)
  | ReadResult.ok ev => some ev.DeviceVendor
  | _ => none

/-- C2 counterexample: decoding the encoding of a record whose vendor is the
three characters `a`, backslash, `b` succeeds, but the decoded vendor is the
twice-escaped text (four characters around the `a` and `b`), not the
once-escaped form the claim requires, because `Read` re-escapes the already
escaped segments. -/
theorem decode_encode_counterexample :
    readVendor (Read ((StringGo slashEvent).out)) ≠ none ∧
    readVendor (Read ((StringGo slashEvent).out)) ≠
      some (cefEscapeField slashEvent.DeviceVendor) ∧
    readVendor (Read ((StringGo slashEvent).out)) =
      some (cefEscapeField (cefEscapeField slashEvent.DeviceVendor)) := by
  refine ⟨by decide, by decide, by decide⟩

/-! ### C5: order lemmas for the byte-lexicographic sort -/

theorem strLeB_total : ∀ a b : List Char, strLeB a b = true ∨ strLeB b a = true := by
  intro a
  induction a with
  | nil => intro b; exact Or.inl rfl
  | cons x xs ih =>
    intro b
    cases b with
    | nil => exact Or.inr rfl
    | cons y ys =>
      unfold strLeB
      rcases lt_trichotomy x y with h | h | h
      · left; rw [if_pos h]
      · subst h
        simp only [if_neg (lt_irrefl x)]
        exact ih ys
      · right; rw [if_pos h]

theorem strLeB_antisymm : ∀ {a b : List Char},
    strLeB a b = true → strLeB b a = true → a = b := by
  intro a
  induction a with
  | nil =>
    intro b h1 h2
    cases b with
    | nil => rfl
    | cons y ys => exact absurd h2 (by simp [strLeB])
  | cons x xs ih =>
    intro b h1 h2
    cases b with
    | nil => exact absurd h1 (by simp [strLeB])
    | cons y ys =>
      unfold strLeB at h1 h2
      rcases lt_trichotomy x y with h | h | h
      · rw [if_neg (asymm h), if_pos h] at h2
        exact absurd h2 (by simp)
      · subst h
        rw [if_neg (lt_irrefl x), if_neg (lt_irrefl x)] at h1 h2
        rw [ih h1 h2]
      · rw [if_neg (asymm h), if_pos h] at h1
        exact absurd h1 (by simp)

theorem strLeB_trans : ∀ (a b c : List Char),
    strLeB a b = true → strLeB b c = true → strLeB a c = true := by
  intro a
  induction a with
  | nil => intro b c _ _; rfl
  | cons x xs ih =>
    intro b c h1 h2
    cases b with
    | nil => exact absurd h1 (by simp [strLeB])
    | cons y ys =>
      cases c with
      | nil => exact absurd h2 (by simp [strLeB])
      | cons z zs =>
        unfold strLeB at h1 h2 ⊢
        rcases lt_trichotomy x y with hxy | hxy | hxy
        · rcases lt_trichotomy y z with hyz | hyz | hyz
          · rw [if_pos (lt_trans hxy hyz)]
          · subst hyz; rw [if_pos hxy]
          · rw [if_neg (asymm hyz), if_pos hyz] at h2
            exact absurd h2 (by simp)
        · subst hxy
          rw [if_neg (lt_irrefl x), if_neg (lt_irrefl x)] at h1
          rcases lt_trichotomy x z with hxz | hxz | hxz
          · rw [if_pos hxz]
          · subst hxz
            rw [if_neg (lt_irrefl x), if_neg (lt_irrefl x)] at h2 ⊢
            exact ih ys zs h1 h2
          · rw [if_neg (asymm hxz), if_pos hxz] at h2
            exact absurd h2 (by simp)
        · rw [if_neg (asymm hxy), if_pos hxy] at h1
          exact absurd h1 (by simp)

instance : IsTotal (List Char) strLe :=
  ⟨fun a b => by
    rcases strLeB_total a b with h | h
    · exact Or.inl h
    · exact Or.inr h⟩

instance : IsTrans (List Char) strLe :=
  ⟨fun a b c h1 h2 => strLeB_trans a b c h1 h2⟩

instance : IsAntisymm (List Char) strLe :=
  ⟨fun _ _ h1 h2 => strLeB_antisymm h1 h2⟩

theorem sortStrings_perm (l : List (List Char)) : (sortStrings l).Perm l :=
  List.perm_insertionSort strLe l

theorem sortStrings_sorted (l : List (List Char)) :
    List.Sorted strLe (sortStrings l) :=
  List.sorted_insertionSort strLe l

theorem sortStrings_eq_of_perm {l₁ l₂ : List (List Char)} (h : l₁.Perm l₂) :
    sortStrings l₁ = sortStrings l₂ :=
  List.eq_of_perm_of_sorted
    ((sortStrings_perm l₁).trans (h.trans (sortStrings_perm l₂).symm))
    (sortStrings_sorted l₁) (sortStrings_sorted l₂)

theorem goLookup_cons (hd : List Char × List Char)
    (tl : List (List Char × List Char)) (k : List Char) :
    goLookup (hd :: tl) k = if hd.1 = k then hd.2 else goLookup tl k := by
  unfold goLookup
  by_cases h : hd.1 = k
  · rw [List.find?_cons_of_pos _ (by simp [h]), if_pos h]
  · rw [List.find?_cons_of_neg _ (by simp [h]), if_neg h]

theorem goLookup_of_mem {m : List (List Char × List Char)}
    {kv : List Char × List Char} (hnd : (m.map Prod.fst).Nodup) (hm : kv ∈ m) :
    goLookup m kv.1 = kv.2 := by
  induction m with
  | nil => simp at hm
  | cons hd tl ih =>
    simp only [List.map_cons, List.nodup_cons] at hnd
    rw [goLookup_cons]
    rcases List.mem_cons.mp hm with h | h
    · rw [if_pos (by rw [h])]
      rw [h]
    · have hne : ¬hd.1 = kv.1 := by
        intro hEq
        exact hnd.1 (hEq ▸ List.mem_map_of_mem Prod.fst h)
      rw [if_neg hne]
      exact ih hnd.2 h

theorem goLookup_perm {m₁ m₂ : List (List Char × List Char)} (h : m₁.Perm m₂)
    (hnd : (m₁.map Prod.fst).Nodup) (k : List Char) :
    goLookup m₁ k = goLookup m₂ k := by
  induction h with
  | nil => rfl
  | cons x hp ih =>
    rw [goLookup_cons, goLookup_cons]
    simp only [List.map_cons, List.nodup_cons] at hnd
    rw [ih hnd.2]
  | swap x y l =>
    rw [goLookup_cons, goLookup_cons, goLookup_cons, goLookup_cons]
    simp only [List.map_cons, List.nodup_cons, List.mem_cons] at hnd
    by_cases h1 : y.1 = k
    · have h2 : ¬x.1 = k := by
        intro hEq
        exact hnd.1 (Or.inl (h1.trans hEq.symm))
      rw [if_pos h1, if_neg h2, if_pos h1]
    · by_cases h2 : x.1 = k
      · rw [if_neg h1, if_pos h2, if_pos h2]
      · rw [if_neg h1, if_neg h2, if_neg h2, if_neg h1]
  | trans h1 h2 ih1 ih2 =>
    rw [ih1 hnd, ih2 ((h1.map Prod.fst).nodup_iff.mp hnd)]

theorem intercalate_cons2 (sep a b : List Char) (l : List (List Char)) :
    List.intercalate sep (a :: b :: l) = a ++ sep ++ List.intercalate sep (b :: l) := by
  simp [List.intercalate, List.intersperse]

theorem dropWhile_of_head_false {s : List Char}
    (h : ∀ c, s.head? = some c → goIsSpace c = false) :
    s.dropWhile goIsSpace = s := by
  cases s with
  | nil => rfl
  | cons c t =>
    rw [List.dropWhile_cons, h c rfl]
    simp

theorem goTrimSpace_wrap {s : List Char}
    (hhead : ∀ c, s.head? = some c → goIsSpace c = false)
    (hlast : ∀ c, s.reverse.head? = some c → goIsSpace c = false) :
    goTrimSpace (s ++ [' ']) = s := by
  unfold goTrimSpace
  cases s with
  | nil => rfl
  | cons c t =>
    rw [List.cons_append, List.dropWhile_cons, hhead c rfl]
    simp only [Bool.false_eq_true, if_false]
    have hrev : (c :: (t ++ [' '])).reverse = ' ' :: (t.reverse ++ [c]) := by
      simp
    rw [hrev, List.dropWhile_cons]
    rw [show goIsSpace ' ' = true from rfl]
    simp only [if_true]
    have hdrop : (t.reverse ++ [c]).dropWhile goIsSpace = t.reverse ++ [c] := by
      apply dropWhile_of_head_false
      intro d hd
      exact hlast d (by rw [List.reverse_cons]; exact hd)
    rw [hdrop]
    simp

theorem flatMap_space_tokens : ∀ toks : List (List Char), toks ≠ [] →
    toks.flatMap (fun t => t ++ [' ']) = List.intercalate [' '] toks ++ [' '] := by
  intro toks
  induction toks with
  | nil => intro h; exact absurd rfl h
  | cons t ts ih =>
    intro _
    cases ts with
    | nil => simp [List.intercalate]
    | cons t2 ts2 =>
      rw [List.flatMap_cons, ih (by simp), intercalate_cons2]
      simp [List.append_assoc]

theorem intercalate_cons_head {t : List Char} (ts : List (List Char))
    (h : t ≠ []) : (List.intercalate [' '] (t :: ts)).head? = t.head? := by
  obtain ⟨c, t', rfl⟩ := List.exists_cons_of_ne_nil h
  cases ts with
  | nil => simp [List.intercalate]
  | cons t2 ts2 => rw [intercalate_cons2]; simp

theorem intercalate_ne_nil {t : List Char} (ts : List (List Char)) (h : t ≠ []) :
    List.intercalate [' '] (t :: ts) ≠ [] := by
  intro hnil
  have h1 := intercalate_cons_head ts h
  rw [hnil] at h1
  obtain ⟨c, t', rfl⟩ := List.exists_cons_of_ne_nil h
  simp at h1

theorem intercalate_reverse_head :
    ∀ toks : List (List Char), (∀ t ∈ toks, t ≠ []) →
    (∀ t ∈ toks, ∀ c, t.reverse.head? = some c → goIsSpace c = false) →
    ∀ c, (List.intercalate [' '] toks).reverse.head? = some c → goIsSpace c = false := by
  intro toks
  induction toks with
  | nil => intro _ _ c hc; simp [List.intercalate] at hc
  | cons t ts ih =>
    intro hne hlast c hc
    cases ts with
    | nil =>
      simp only [List.intercalate, List.intersperse, List.flatten, List.append_nil] at hc
      exact hlast t (List.mem_cons_self _ _) c (by simpa using hc)
    | cons t2 ts2 =>
      rw [intercalate_cons2] at hc
      have hne2 : List.intercalate [' '] (t2 :: ts2) ≠ [] :=
        intercalate_ne_nil ts2 (hne t2 (by simp))
      obtain ⟨a, as, hrev⟩ := List.exists_cons_of_ne_nil
        (show (List.intercalate [' '] (t2 :: ts2)).reverse ≠ [] by
          simpa using hne2)
      rw [List.append_assoc, List.reverse_append, List.reverse_append, hrev] at hc
      simp only [List.reverse_cons, List.reverse_nil, List.nil_append,
        List.cons_append, List.head?_cons] at hc
      have ha : goIsSpace a = false := by
        apply ih (fun u hu => hne u (List.mem_cons_of_mem _ hu))
          (fun u hu => hlast u (List.mem_cons_of_mem _ hu)) a
        rw [hrev]
        rfl
      cases hc
      exact ha

theorem token_ne_nil (k v : List Char) : k ++ '=' :: v ≠ [] := by
  cases k <;> simp

theorem token_head_false {k : List Char} (v : List Char)
    (hk : ∀ c, k.head? = some c → goIsSpace c = false) :
    ∀ c, (k ++ '=' :: v).head? = some c → goIsSpace c = false := by
  cases k with
  | nil =>
    intro c hc
    simp only [List.nil_append, List.head?_cons, Option.some.injEq] at hc
    rw [← hc]
    decide
  | cons a as =>
    intro c hc
    simp only [List.cons_append, List.head?_cons, Option.some.injEq] at hc
    exact hc ▸ hk a rfl

theorem token_last_false (k : List Char) {v : List Char}
    (hv : ∀ c, v.reverse.head? = some c → goIsSpace c = false) :
    ∀ c, (k ++ '=' :: v).reverse.head? = some c → goIsSpace c = false := by
  intro c hc
  rw [List.reverse_append, List.reverse_cons] at hc
  cases hrv : v.reverse with
  | nil =>
    rw [hrv] at hc
    simp only [List.nil_append, List.cons_append, List.head?_cons,
      Option.some.injEq] at hc
    rw [← hc]
    decide
  | cons u us =>
    rw [hrv] at hc
    simp only [List.cons_append, List.head?_cons, Option.some.injEq] at hc
    exact hc ▸ hv u (by rw [hrv]; rfl)

theorem extensionString_intercalate {m : List (List Char × List Char)}
    (hkeys : ∀ k ∈ m.map Prod.fst, ∀ c, k.head? = some c → goIsSpace c = false)
    (hvals : ∀ k ∈ m.map Prod.fst, ∀ c,
      (goLookup m k).reverse.head? = some c → goIsSpace c = false) :
    extensionString m =
      List.intercalate [' ']
        ((sortStrings (m.map Prod.fst)).map (fun k => k ++ '=' :: goLookup m k)) := by
  unfold extensionString
  have hfun : (fun k => k ++ '=' :: goLookup m k ++ [' ']) =
      fun k => (k ++ '=' :: goLookup m k) ++ [' '] := by
    funext k
    simp
  rw [hfun]
  cases hS : sortStrings (m.map Prod.fst) with
  | nil => simp [goTrimSpace, List.intercalate]
  | cons k0 ks =>
    have hsub : ∀ k ∈ k0 :: ks, k ∈ m.map Prod.fst := by
      intro k hk
      rw [← hS] at hk
      exact (sortStrings_perm _).subset hk
    have hflat : (k0 :: ks).flatMap (fun k => (k ++ '=' :: goLookup m k) ++ [' ']) =
        ((k0 :: ks).map (fun k => k ++ '=' :: goLookup m k)).flatMap
          (fun t => t ++ [' ']) := by
      rw [List.flatMap_map]
    rw [hflat, flatMap_space_tokens _ (by simp)]
    rw [List.map_cons]
    apply goTrimSpace_wrap
    · intro c hc
      rw [intercalate_cons_head _ (token_ne_nil k0 (goLookup m k0))] at hc
      exact token_head_false (goLookup m k0) (hkeys k0 (hsub k0 (by simp))) c hc
    · apply intercalate_reverse_head
      · intro t ht
        rcases List.mem_cons.mp ht with h | h
        · subst h; exact token_ne_nil _ _
        · rw [List.mem_map] at h
          obtain ⟨k, hk, rfl⟩ := h
          exact token_ne_nil k (goLookup m k)
      · intro t ht c hc
        rcases List.mem_cons.mp ht with h | h
        · subst h
          exact token_last_false k0 (hvals k0 (hsub k0 (by simp))) c hc
        · rw [List.mem_map] at h
          obtain ⟨k, hk, rfl⟩ := h
          exact token_last_false k (hvals k (hsub k (List.mem_cons_of_mem _ hk))) c hc

theorem extensionString_congr {m₁ m₂ : List (List Char × List Char)}
    (hperm : m₁.Perm m₂) (hnd : (m₁.map Prod.fst).Nodup) :
    extensionString m₁ = extensionString m₂ := by
  unfold extensionString
  rw [sortStrings_eq_of_perm (hperm.map Prod.fst)]
  have hfun : (fun k => k ++ '=' :: goLookup m₁ k ++ [' ']) =
      (fun k => k ++ '=' :: goLookup m₂ k ++ [' ']) := by
    funext k
    rw [goLookup_perm hperm hnd k]
  rw [hfun]

/-- Leading character (if any) is not Go white space. -/
def noLeadWS (s : List Char) : Prop := ∀ c, s.head? = some c → goIsSpace c = false

/-- Trailing character (if any) is not Go white space. -/
def noTrailWS (s : List Char) : Prop := ∀ c, s.reverse.head? = some c → goIsSpace c = false

/-- C5 amended: for a valid record with distinct raw extension keys the
encoded output is independent of the iteration order of the supplied map,
the sorted escaped keys are in strictly ascending byte-lexicographic order,
and each key looks up the escaped value of its raw pair; and, provided no
escaped key starts with white space and no escaped value ends with white
space, the extension segment is exactly the `key=value` tokens joined by
single spaces in that order (with such white space, `strings.TrimSpace`
clips the first or last token, which falsifies the original claim). -/
theorem ext_sorted_deterministic (e : CefEvent)
    (m₂ : List (List Char × List Char))
    (hnd : (e.Extensions.map Prod.fst).Nodup) (hp : m₂.Perm e.Extensions) :
    (StringGo { e with Extensions := m₂ }).out = (StringGo e).out ∧
    List.Pairwise (fun a b => strLe a b ∧ a ≠ b)
      (sortStrings ((escapeExtensions e.Extensions).map Prod.fst)) ∧
    (∀ kv ∈ e.Extensions,
      goLookup (escapeExtensions e.Extensions) (cefEscapeExtension kv.1) =
        cefEscapeExtension kv.2) ∧
    ((∀ kv ∈ e.Extensions, noLeadWS (cefEscapeExtension kv.1) ∧
        noTrailWS (cefEscapeExtension kv.2)) →
      extensionString (escapeExtensions e.Extensions) =
        List.intercalate [' ']
          ((sortStrings ((escapeExtensions e.Extensions).map Prod.fst)).map
            (fun k => k ++ '=' :: goLookup (escapeExtensions e.Extensions) k))) := by
  have hndm2 : (m₂.map Prod.fst).Nodup := ((hp.map Prod.fst).nodup_iff).mpr hnd
  have hescE : escapeExtensions e.Extensions =
      e.Extensions.map (fun kv => (cefEscapeExtension kv.1, cefEscapeExtension kv.2)) :=
    escapeExtensions_eq_map (escKeys_nodup hnd)
  have hescM2 : escapeExtensions m₂ =
      m₂.map (fun kv => (cefEscapeExtension kv.1, cefEscapeExtension kv.2)) :=
    escapeExtensions_eq_map (escKeys_nodup hndm2)
  have hEkeys : (escapeExtensions e.Extensions).map Prod.fst =
      e.Extensions.map (fun kv => cefEscapeExtension kv.1) := by
    rw [hescE]
    simp [List.map_map, Function.comp]
  have hndE : ((escapeExtensions e.Extensions).map Prod.fst).Nodup := by
    rw [hEkeys]
    exact escKeys_nodup hnd
  have hlook : ∀ kv ∈ e.Extensions,
      goLookup (escapeExtensions e.Extensions) (cefEscapeExtension kv.1) =
        cefEscapeExtension kv.2 := by
    intro kv hkv
    rw [hescE]
    have := @goLookup_of_mem
      (e.Extensions.map (fun kv => (cefEscapeExtension kv.1, cefEscapeExtension kv.2)))
      (cefEscapeExtension kv.1, cefEscapeExtension kv.2)
      (by rw [← hescE]; exact hndE)
      (List.mem_map_of_mem _ hkv)
    exact this
  refine ⟨?_, ?_, hlook, ?_⟩
  · by_cases hv : Validate e = true
    · have hv2 : Validate { e with Extensions := m₂ } = true := hv
      simp only [StringGo, hv, hv2, if_true]
      unfold buildLine escapeEventData
      have hE : extensionString (escapeExtensions m₂) =
          extensionString (escapeExtensions e.Extensions) := by
        rw [hescE, hescM2]
        apply extensionString_congr (hp.map _)
        have : (m₂.map (fun kv => (cefEscapeExtension kv.1, cefEscapeExtension kv.2))).map
            Prod.fst = m₂.map (fun kv => cefEscapeExtension kv.1) := by
          simp [List.map_map, Function.comp]
        rw [this]
        exact escKeys_nodup hndm2
      simp only [hE]
    · have hv2 : Validate { e with Extensions := m₂ } = Validate e := rfl
      simp only [StringGo, hv2]
      rw [if_neg (by simpa using hv), if_neg (by simpa using hv)]
  · have hsorted : List.Pairwise strLe
        (sortStrings ((escapeExtensions e.Extensions).map Prod.fst)) :=
      sortStrings_sorted _
    have hnodup : List.Pairwise (fun a b : List Char => a ≠ b)
        (sortStrings ((escapeExtensions e.Extensions).map Prod.fst)) :=
      ((sortStrings_perm _).nodup_iff).mpr hndE
    exact hsorted.and hnodup
  · intro hw
    apply extensionString_intercalate
    · intro k hk c hc
      rw [hEkeys, List.mem_map] at hk
      obtain ⟨kv, hkv, rfl⟩ := hk
      exact (hw kv hkv).1 c hc
    · intro k hk c hc
      rw [hEkeys, List.mem_map] at hk
      obtain ⟨kv, hkv, rfl⟩ := hk
      rw [hlook kv hkv] at hc
      exact (hw kv hkv).2 c hc

theorem headWS_helper {s : List Char} (h : ∀ c ∈ s, goIsSpace c = false) :
    noLeadWS s ∧ noTrailWS s := by
  constructor
  · intro c hc
    cases s with
    | nil => simp at hc
    | cons a t =>
      simp only [List.head?_cons, Option.some.injEq] at hc
      exact hc ▸ h a (List.mem_cons_self _ _)
  · intro c hc
    cases hs : s.reverse with
    | nil => rw [hs] at hc; simp at hc
    | cons a t =>
      rw [hs] at hc
      simp only [List.head?_cons, Option.some.injEq] at hc
      have ha : a ∈ s := by
        rw [← List.mem_reverse, hs]
        exact List.mem_cons_self _ _
      exact hc ▸ h a ha

/-- A valid record with a two-entry extension map, listed here in the
iteration order b before a. -/
def extEventA : CefEvent :=
  { sampleEvent with
    Extensions := [("b".toList, "2".toList), ("a".toList, "1".toList)] }

/-- Witness for C5 at a concrete two-entry map and its permutation. -/
theorem ext_sorted_deterministic_witness :
    (StringGo { extEventA with
        Extensions := [("a".toList, "1".toList), ("b".toList, "2".toList)] }).out =
      (StringGo extEventA).out ∧
    extensionString (escapeExtensions extEventA.Extensions) =
      List.intercalate [' ']
        ((sortStrings ((escapeExtensions extEventA.Extensions).map Prod.fst)).map
          (fun k => k ++ '=' :: goLookup (escapeExtensions extEventA.Extensions) k)) :=
  ⟨(ext_sorted_deterministic extEventA
      [("a".toList, "1".toList), ("b".toList, "2".toList)]
      (by decide) (by decide)).1,
   (ext_sorted_deterministic extEventA
      [("a".toList, "1".toList), ("b".toList, "2".toList)]
      (by decide) (by decide)).2.2.2
     (by
       intro kv hkv
       fin_cases hkv
       · exact ⟨(headWS_helper (by decide)).1, (headWS_helper (by decide)).2⟩
       · exact ⟨(headWS_helper (by decide)).1, (headWS_helper (by decide)).2⟩)⟩

/-- A valid record whose extension value ends in a space. -/
def trimEvent : CefEvent :=
  { sampleEvent with Extensions := [("k".toList, "v ".toList)] }

/-- C5 counterexample: with the single extension pair `k` to `v ` (trailing
space, unchanged by escaping), the claimed segment is the token `k=v ` but
`strings.TrimSpace` clips it, so the line ends `|k=v` and is not the
CEF header followed by the claimed token. -/
theorem ext_segment_counterexample :
    trimEvent.Extensions = [("k".toList, "v ".toList)] ∧
    cefEscapeExtension "v ".toList = "v ".toList ∧
    (StringGo trimEvent).out =
      ("CEF:0|Cool Vendor|Cool Product|1.0|COOL_THING|" ++
        "Something cool happened.|Unknown|k=v").toList ∧
    (StringGo trimEvent).out ≠
      ("CEF:0|Cool Vendor|Cool Product|1.0|COOL_THING|" ++
        "Something cool happened.|Unknown|").toList ++
        ("k".toList ++ '=' :: cefEscapeExtension "v ".toList) := by
  refine ⟨by decide, by decide, by decide, by decide⟩
